import Mathlib

/-!
Verification development for the `advancedResults` middleware of the
flx-compass-server repository (src/middleware/advancedResults.js).

The middleware translates an HTTP query-string mapping into a database
query description (filter / select / sort / skip / limit / populate),
issues an unfiltered document count, executes the query through an
abstract collection handle, and attaches
`{success, count, pagination, data}` to the response.

Embedding choices:
* A query-string mapping (as produced by the Express `qs` parser) maps
  keys to either string values or nested string-keyed objects; this is
  the `JVal`/`JMems` fragment below.  `JSON.stringify` / `JSON.parse`
  are modelled on this fragment (strings and objects, with the JSON
  escape sequences `JSON.stringify` emits and `JSON.parse` accepts on
  such data; numbers, arrays, booleans and inter-token whitespace do
  not occur in any text this middleware produces or consumes).
* The regex replace `queryStr.replace(/\b(gt|gte|lt|lte|in)\b/g, m => "$" + m)`
  is modelled by the character scanner `scan`, which mirrors the JS
  regex engine: at each position with a word boundary before it, the
  alternatives are tried in order, each requiring a word boundary after
  the match; `\w` is ASCII `[A-Za-z0-9_]`.
* `parseInt(x, 10)` and the falsy-`||` defaulting are modelled by
  `parseIntVal` / `jsOr` (`NaN` is `none`; `0` and `-0` are falsy).
* The database model is an abstract handle: `exec` runs a fully built
  query description, `countDocumentsWith` counts documents (the code
  calls it with no filter argument, i.e. `none`).  Failures of either
  are `Except.error`, as is a `JSON.parse` failure and the `TypeError`
  of calling `.split` on a non-string `select`/`sort` value.
-/

mutual
/-- A JSON-like value as produced by the Express query-string parser:
a string, or a string-keyed object whose values are again such values. -/
inductive JVal where
  | jstr : String → JVal
  | jobj : JMems → JVal
/-- The members of a JSON-like object: an association list from keys
to values, in insertion order. -/
inductive JMems where
  | nil : JMems
  | cons : String → JVal → JMems → JMems
end

/-- Property lookup on an object, first binding wins (JS object access). -/
def lookupJM : JMems → String → Option JVal
  | .nil, _ => none
  | .cons k v m, key => if k = key then some v else lookupJM m key

/-- `delete obj[k]` on an object modelled as an association list. -/
def removeKeyJM (k : String) : JMems → JMems
  | .nil => .nil
  | .cons k' v m => if k' = k then removeKeyJM k m else .cons k' v (removeKeyJM k m)

/-- The reserved presentation keys, in source order:
`const removeFields = ['select', 'sort', 'page', 'limit'];` -/
def removeFields : List String := ["select", "sort", "page", "limit"]

/-- `const reqQuery = {...req.query}; removeFields.forEach(param => delete reqQuery[param]);` -/
def reqQueryOf (q : JMems) : JMems :=
  removeFields.foldl (fun m k => removeKeyJM k m) q

/-! ### JS `parseInt(·, 10)` and falsy-or defaulting -/

/-- ASCII whitespace skipped by JS `parseInt` (the fragment that can occur
in a query-string value). -/
def isJsWs (c : Char) : Bool :=
  c = ' ' || c = '\t' || c = '\n' || c = '\r' || c = Char.ofNat 11 || c = Char.ofNat 12

/-- Decimal value of a digit run. -/
def natFromDigits (ds : List Char) : Nat :=
  ds.foldl (fun a c => a * 10 + (c.toNat - '0'.toNat)) 0

/-- Leading-digit parse used by `parseInt`: take the longest leading digit
run; no digits means `NaN` (`none`). -/
def parseDigits (cs : List Char) : Option Nat :=
  let ds := cs.takeWhile Char.isDigit
  if ds.isEmpty then none else some (natFromDigits ds)

/-- JS `parseInt(s, 10)`: skip whitespace, optional sign, longest digit
prefix; `none` models `NaN`.  (`parseInt("-0")` gives `-0`, which is `0`
here — both are falsy under `||`, so the distinction is immaterial.) -/
def parseIntStr (s : String) : Option Int :=
  match s.data.dropWhile isJsWs with
  | '-' :: cs => (parseDigits cs).map (fun n => -(n : Int))
  | '+' :: cs => (parseDigits cs).map (fun n => (n : Int))
  | cs => (parseDigits cs).map (fun n => (n : Int))

/-- `parseInt(req.query.page, 10)` where the property may be absent
(`undefined` → `NaN`), a string, or a nested object (coerced to the
string `"[object Object]"`, which parses to `NaN`). -/
def parseIntVal : Option JVal → Option Int
  | none => none
  | some (.jstr s) => parseIntStr s
  | some (.jobj _) => parseIntStr "[object Object]"

/-- JS `x || d` for a number `x` that may be `NaN` (`none`): `NaN` and
`±0` are falsy and select the default. -/
def jsOr (x : Option Int) (d : Int) : Int :=
  match x with
  | none => d
  | some n => if n = 0 then d else n

/-- `const page = parseInt(req.query.page, 10) || 1;` -/
def pageOf (q : JMems) : Int := jsOr (parseIntVal (lookupJM q "page")) 1

/-- `const limit = parseInt(req.query.limit, 10) || 1000;` -/
def limitOf (q : JMems) : Int := jsOr (parseIntVal (lookupJM q "limit")) 1000

/-- `const startIndex = (page - 1) * limit;` -/
def startIndexOf (q : JMems) : Int := (pageOf q - 1) * limitOf q

/-- `const endIndex = page * limit;` -/
def endIndexOf (q : JMems) : Int := pageOf q * limitOf q

/-! ### Pagination metadata -/

/-- The `pagination` object: optional `next`/`prev`, each a
`{page, limit}` pair. -/
structure Pagination where
  next : Option (Int × Int)
  prev : Option (Int × Int)
deriving DecidableEq, Repr

/-- Lines 53–67 of the source: `next` iff `endIndex < total`, `prev` iff
`startIndex > 0`. -/
def mkPagination (page limit total : Int) : Pagination :=
  { next := if page * limit < total then some (page + 1, limit) else none
    prev := if (page - 1) * limit > 0 then some (page - 1, limit) else none }

/-! ### `JSON.stringify` on the string/object fragment -/

/-- Lower-case hex digit, as emitted by `JSON.stringify` in `\uXXXX`
escapes. -/
def hexDigitChar (n : Nat) : Char :=
  if n < 10 then Char.ofNat (48 + n) else Char.ofNat (87 + n)

/-- The escape `JSON.stringify` applies to one character of a string:
`\"` `\\` and the named control escapes, `\u00XX` for other control
characters, the character itself otherwise.  (Conditions compare code
points; `c = '"'` and `c.toNat = 34` agree since a character is its
code point.) -/
def escChar (c : Char) : List Char :=
  if c.toNat = 92 then ['\\', '\\']
  else if c.toNat = 34 then ['\\', '"']
  else if c.toNat = 10 then ['\\', 'n']
  else if c.toNat = 9 then ['\\', 't']
  else if c.toNat = 13 then ['\\', 'r']
  else if c.toNat = 8 then ['\\', 'b']
  else if c.toNat = 12 then ['\\', 'f']
  else if c.toNat < 32 then
    ['\\', 'u', '0', '0', hexDigitChar (c.toNat / 16), hexDigitChar (c.toNat % 16)]
  else [c]

/-- String-body escaping of `JSON.stringify`. -/
def escape (cs : List Char) : List Char := (cs.map escChar).flatten

mutual
/-- `JSON.stringify` of a value of the fragment. -/
def serV : JVal → List Char
  | .jstr s => '"' :: escape s.data ++ ['"']
  | .jobj m => '{' :: serM m ++ ['}']
/-- `JSON.stringify` of an object body (without the braces). -/
def serM : JMems → List Char
  | .nil => []
  | .cons k v .nil => '"' :: escape k.data ++ '"' :: ':' :: serV v
  | .cons k v m => '"' :: escape k.data ++ '"' :: ':' :: serV v ++ ',' :: serM m
end

/-! ### The regex rewrite `\b(gt|gte|lt|lte|in)\b` → `$`-prefixed -/

/-- JS regex `\w`: ASCII letters, digits, underscore. -/
def isW (c : Char) : Bool := c.isAlphanum || c = '_'

/-- Whether a position starting this suffix sits before a word character
(used for the `\b` check after a candidate match: the boundary holds iff
this is false). -/
def wordB : List Char → Bool
  | [] => false
  | c :: _ => isW c

/-- The regex match attempt of `/(gt|gte|lt|lte|in)\b/` at the head of
the input (to be attempted only where a word boundary precedes): the
alternatives are tried in regex order — `gt` before `gte`, `lt` before
`lte` — each requiring a word boundary after it; the matched token is
returned. -/
def tokAt : List Char → Option (List Char)
  | 'g' :: 't' :: 'e' :: rest => if !wordB rest then some ['g', 't', 'e'] else none
  | 'g' :: 't' :: rest => if !wordB rest then some ['g', 't'] else none
  | 'l' :: 't' :: 'e' :: rest => if !wordB rest then some ['l', 't', 'e'] else none
  | 'l' :: 't' :: rest => if !wordB rest then some ['l', 't'] else none
  | 'i' :: 'n' :: rest => if !wordB rest then some ['i', 'n'] else none
  | _ => none

/-- The scanner of `String.prototype.replace` with the global regex
`/\b(gt|gte|lt|lte|in)\b/` and replacement `m => "$" + m`.  `prevW`
records whether the previous character was a word character (start of
input counts as non-word); `skip` counts characters of an
already-emitted match still to be consumed.  At a position with a word
boundary before it a match is attempted; on a match the token is
emitted `$`-prefixed and scanning resumes after it. -/
def scan : Nat → Bool → List Char → List Char
  | _, _, [] => []
  | skip + 1, _, _ :: cs => scan skip true cs
  | 0, true, c :: cs => c :: scan 0 (isW c) cs
  | 0, false, c :: cs =>
    match tokAt (c :: cs) with
    | some tok => '$' :: tok ++ scan (tok.length - 1) true cs
    | none => c :: scan 0 (isW c) cs

/-- `queryStr.replace(/\b(gt|gte|lt|lte|in)\b/g, match => "$" + match)`. -/
def replaceOps (s : String) : String := ⟨scan 0 false s.data⟩

/-- The five reserved operator words of the rewrite. -/
def toksL : List (List Char) := [['g', 't'], ['g', 't', 'e'], ['l', 't'], ['l', 't', 'e'], ['i', 'n']]

/-- Split a text into its maximal runs of characters of equal
word-character status (so a *standalone*, word-boundary-delimited
occurrence of a word is exactly a full run equal to it). -/
def splitRuns : List Char → List (List Char)
  | [] => []
  | c :: cs =>
    match splitRuns cs with
    | [] => [[c]]
    | [] :: rs => [c] :: [] :: rs
    | (d :: r) :: rs =>
      if isW c == isW d then (c :: d :: r) :: rs else [c] :: (d :: r) :: rs

/-- Rewrite one maximal run as the specification describes: a run that
is exactly one of the reserved words gains a `$` prefix; all other text
is left alone. -/
def rwRun (r : List Char) : List Char := if r ∈ toksL then '$' :: r else r

/-- The specification's description of the operator rewrite: replace
every standalone occurrence of a reserved word, anywhere in the text,
by its `$`-prefixed form. -/
def rwSpec (cs : List Char) : List Char := ((splitRuns cs).map rwRun).flatten

/-- A text contains no standalone occurrence of any reserved operator
word: no maximal run equals one of them. -/
def hasNoOpWord (cs : List Char) : Bool := (splitRuns cs).all (fun r => decide (r ∉ toksL))

/-! ### `JSON.parse` on the string/object fragment -/

/-- Value of a hex digit, by code point. -/
def hexDigitVal (c : Char) : Option Nat :=
  let n := c.toNat
  if 48 ≤ n && n ≤ 57 then some (n - 48)
  else if 97 ≤ n && n ≤ 102 then some (n - 87)
  else if 65 ≤ n && n ≤ 70 then some (n - 55)
  else none

/-- Prepend a decoded character to a string-body parse result. -/
def strCons (c : Char) (o : Option (List Char × List Char)) : Option (List Char × List Char) :=
  o.map (fun p => (c :: p.1, p.2))

/-- Parse the body of a JSON string literal (after the opening quote) up
to and including the closing quote, decoding escapes; raw control
characters are rejected as `JSON.parse` does. -/
def parseStrBody : List Char → Option (List Char × List Char)
  | [] => none
  | '"' :: tl => some ([], tl)
  | '\\' :: '\\' :: tl => strCons '\\' (parseStrBody tl)
  | '\\' :: '"' :: tl => strCons '"' (parseStrBody tl)
  | '\\' :: 'n' :: tl => strCons (Char.ofNat 10) (parseStrBody tl)
  | '\\' :: 't' :: tl => strCons (Char.ofNat 9) (parseStrBody tl)
  | '\\' :: 'r' :: tl => strCons (Char.ofNat 13) (parseStrBody tl)
  | '\\' :: 'b' :: tl => strCons (Char.ofNat 8) (parseStrBody tl)
  | '\\' :: 'f' :: tl => strCons (Char.ofNat 12) (parseStrBody tl)
  | '\\' :: '/' :: tl => strCons '/' (parseStrBody tl)
  | '\\' :: 'u' :: h1 :: h2 :: h3 :: h4 :: tl =>
    match hexDigitVal h1, hexDigitVal h2, hexDigitVal h3, hexDigitVal h4 with
    | some x, some y, some z, some w =>
      strCons (Char.ofNat (4096 * x + 256 * y + 16 * z + w)) (parseStrBody tl)
    | _, _, _, _ => none
  | '\\' :: _ => none
  | c :: tl => if c.toNat < 32 then none else strCons c (parseStrBody tl)

/-- Recursive-descent `JSON.parse` for the fragment, with a fuel bound
on nesting depth; returns the parsed value and the unconsumed suffix.
In value mode (`mems = false`) it parses one value; in member mode
(`mems = true`, entered after an opening `{` with a nonempty body) it
parses one or more `"key":value` members up to and including the
closing `}`, returning them as an object. -/
def parseF : Nat → Bool → List Char → Option (JVal × List Char)
  | 0, _, _ => none
  | _ + 1, false, '"' :: cs => (parseStrBody cs).map (fun p => (.jstr ⟨p.1⟩, p.2))
  | _ + 1, false, '{' :: '}' :: cs => some (.jobj .nil, cs)
  | f + 1, false, '{' :: cs => parseF f true cs
  | f + 1, true, '"' :: cs =>
    match parseStrBody cs with
    | some (k, ':' :: cs1) =>
      match parseF f false cs1 with
      | some (v, ',' :: cs2) =>
        match parseF f true cs2 with
        | some (.jobj m, cs3) => some (.jobj (.cons ⟨k⟩ v m), cs3)
        | _ => none
      | some (v, '}' :: cs2) => some (.jobj (.cons ⟨k⟩ v .nil), cs2)
      | _ => none
    | _ => none
  | _, _, _ => none

/-- `JSON.parse` of an entire text (must consume everything). -/
def jparse (s : String) : Option JVal :=
  match parseF (s.data.length + 1) false s.data with
  | some (v, []) => some v
  | _ => none

/-! ### The remaining request-processing steps -/

/-- `s.split(',').join(' ')`: splitting on a single comma and joining
with a single space replaces each comma by a space. -/
def splitJoin (s : String) : String := ⟨s.data.map (fun c => if c = ',' then ' ' else c)⟩

/-- Lines 23–26: `if (req.query.select) { fields = select.split(',').join(' ') }`.
An absent or empty (falsy) value leaves the projection unset; a non-string
(object) value is truthy and `.split` on it raises a `TypeError`. -/
def selectSpec (q : JMems) : Except String (Option String) :=
  match lookupJM q "select" with
  | none => .ok none
  | some (.jstr s) => if s = "" then .ok none else .ok (some (splitJoin s))
  | some (.jobj _) => .error "TypeError: select.split is not a function"

/-- Lines 29–34: comma-split sort spec when `sort` is truthy, otherwise
`sort('name')`. -/
def sortSpec (q : JMems) : Except String String :=
  match lookupJM q "sort" with
  | none => .ok "name"
  | some (.jstr s) => if s = "" then .ok "name" else .ok (splitJoin s)
  | some (.jobj _) => .error "TypeError: sort.split is not a function"

/-- `if (populate) { query = query.populate(populate) }`: the populate
argument is applied only when truthy (present and non-empty). -/
def populateOf (populate : Option String) : Option String :=
  match populate with
  | some s => if s = "" then none else some s
  | none => none

/-- The fully built (still unexecuted) query description handed to the
collection: filter, projection, sort spec, skip/limit, populate path. -/
structure QueryParams where
  filter : JVal
  select : Option String
  sort : String
  skip : Int
  limit : Int
  populate : Option String

/-- Abstract collection handle (the external model/ODM collaborator):
`exec` awaits a built query, `countDocumentsWith` counts documents given
an optional filter (the middleware always passes `none`: the count is
unconditional). -/
structure Model where
  exec : QueryParams → Except String (List JVal)
  countDocumentsWith : Option JVal → Except String Int

/-- The object attached as `res.advancedResults`. -/
structure Resp where
  success : Bool
  count : Nat
  pagination : Pagination
  data : List JVal

/-- The `advancedResults` middleware body, in source order: copy the
query and delete the reserved keys; stringify, rewrite operators, parse
back into the filter; read `select`/`sort` from the original query;
compute `page`/`limit`/`startIndex`; await the unconditional count;
apply skip/limit and populate; await the query; build pagination
metadata; attach `{success: true, count, pagination, data}`.  The
request's query mapping is returned alongside to record its final
state.  Every `throw` point of the source is an `Except.error`. -/
def advancedResults (m : Model) (populate : Option String) (q : JMems) :
    Except String (Resp × JMems) := do
  let reqQuery := reqQueryOf q
  let queryStr := replaceOps ⟨serV (.jobj reqQuery)⟩
  let filter ← match jparse queryStr with
    | some f => Except.ok f
    | none => Except.error "SyntaxError: Unexpected token in JSON"
  let sel ← selectSpec q
  let srt ← sortSpec q
  let page := pageOf q
  let limit := limitOf q
  let startIndex := (page - 1) * limit
  let total ← m.countDocumentsWith none
  let results ← m.exec
    { filter := filter, select := sel, sort := srt,
      skip := startIndex, limit := limit, populate := populateOf populate }
  Except.ok
    ({ success := true, count := results.length,
       pagination := mkPagination page limit total, data := results }, q)


/-- A constant collection handle: every query returns `docs`, every
count returns `total`, nothing fails. -/
def constModel (docs : List JVal) (total : Int) : Model :=
  { exec := fun _ => .ok docs, countDocumentsWith := fun _ => .ok total }

/-- A collection handle whose unconditional count (10) differs from any
filtered count (3): used to exhibit that pagination uses the former. -/
def skewModel : Model :=
  { exec := fun _ => .ok [.jstr "doc"]
    countDocumentsWith := fun f => match f with | none => .ok 10 | some _ => .ok 3 }

/-- A collection handle whose count fails. -/
def countFailModel : Model :=
  { exec := fun _ => .ok [], countDocumentsWith := fun _ => .error "MongoNetworkError" }

/-- A raw parameter value that denotes a negative or fractional number:
its integer parse is negative, or it is a fractional literal (contains a
decimal point). -/
def negOrFracStr (s : String) : Bool :=
  (match parseIntStr s with | some n => decide (n < 0) | none => false) || s.data.contains '.'

/-- Example query: `?page=2&limit=3`. -/
def qP2L3 : JMems := .cons "page" (.jstr "2") (.cons "limit" (.jstr "3") .nil)

/-- Example query: `?page=0&limit=0`. -/
def qPL0 : JMems := .cons "page" (.jstr "0") (.cons "limit" (.jstr "0") .nil)

/-- Example query: `?page=-2&limit=5`. -/
def qNeg : JMems := .cons "page" (.jstr "-2") (.cons "limit" (.jstr "5") .nil)

/-- Example query: `?sort=-name,price&price=10`. -/
def qSortPrice : JMems := .cons "sort" (.jstr "-name,price") (.cons "price" (.jstr "10") .nil)

/-- Example query: `?price[gt]=50`, as parsed by the query-string parser. -/
def exFilterQ : JMems := .cons "price" (.jobj (.cons "gt" (.jstr "50") .nil)) .nil

/-- Example query: `?limit=5&price[gt]=50`. -/
def qLimit5Filter : JMems := .cons "limit" (.jstr "5") exFilterQ

mutual
/-- Fuel sufficient for `parseF` to parse the serialization of a value. -/
def fuelV : JVal → Nat
  | .jstr _ => 1
  | .jobj m => fuelM m + 1
/-- Fuel sufficient for `parseF` to parse serialized members. -/
def fuelM : JMems → Nat
  | .nil => 1
  | .cons _ v m => max (fuelV v) (fuelM m) + 1
end

/-- Example query: `?page=2` alone (sort and limit absent). -/
def qPage2 : JMems := .cons "page" (.jstr "2") .nil

/-- Example query: `?sort=-name` alone (page and limit absent). -/
def qSortOnly : JMems := .cons "sort" (.jstr "-name") .nil

/-- Example query: `?page=0&limit=50`. -/
def qP0L50 : JMems := .cons "page" (.jstr "0") (.cons "limit" (.jstr "50") .nil)

/-- Example query: `?limit=0` alone. -/
def qL0 : JMems := .cons "limit" (.jstr "0") .nil

/-- Example query: `?limit=-5` alone. -/
def qLimNeg : JMems := .cons "limit" (.jstr "-5") .nil

/-! ## Induction principles for the mutual value type -/

theorem JMems.induct {motive : JMems → Prop} (hnil : motive .nil)
    (hcons : ∀ k v m, motive m → motive (.cons k v m)) : ∀ m, motive m
  | .nil => hnil
  | .cons k v m => hcons k v m (JMems.induct hnil hcons m)


/-! ## Lemmas about filter extraction -/

lemma lookupJM_removeKeyJM (k key : String) (m : JMems) :
    lookupJM (removeKeyJM k m) key = if k = key then none else lookupJM m key := by
  induction m using JMems.induct with
  | hnil => simp [removeKeyJM, lookupJM]
  | hcons k' v m ih =>
    by_cases hk : k' = k
    · subst hk
      by_cases hkey : k' = key
      · subst hkey; simp [removeKeyJM, lookupJM, ih]
      · simp [removeKeyJM, lookupJM, hkey, ih]
    · by_cases hkey : k' = key
      · subst hkey
        have : ¬ k = k' := fun h => hk h.symm
        simp [removeKeyJM, lookupJM, hk, this]
      · simp [removeKeyJM, lookupJM, hk, hkey, ih]

lemma lookupJM_reqQueryOf (q : JMems) (k : String) :
    lookupJM (reqQueryOf q) k = if k ∈ removeFields then none else lookupJM q k := by
  show lookupJM (removeKeyJM "limit" (removeKeyJM "page" (removeKeyJM "sort"
      (removeKeyJM "select" q)))) k = _
  rw [lookupJM_removeKeyJM, lookupJM_removeKeyJM, lookupJM_removeKeyJM, lookupJM_removeKeyJM]
  by_cases h1 : k = "select" <;> by_cases h2 : k = "sort" <;>
    by_cases h3 : k = "page" <;> by_cases h4 : k = "limit" <;>
      simp_all [removeFields, eq_comm]

/-! ## Lemmas about defaulting and the middleware's success shape -/

lemma jsOr_of_ne_zero (n d : Int) (h : n ≠ 0) : jsOr (some n) d = n := by
  simp [jsOr, h]

lemma pageOf_eq (q : JMems) (p : Int) (hp : parseIntVal (lookupJM q "page") = some p)
    (h : p ≠ 0) : pageOf q = p := by
  simp [pageOf, hp, jsOr_of_ne_zero _ _ h]

lemma limitOf_eq (q : JMems) (l : Int) (hl : parseIntVal (lookupJM q "limit") = some l)
    (h : l ≠ 0) : limitOf q = l := by
  simp [limitOf, hl, jsOr_of_ne_zero _ _ h]

lemma advancedResults_ok (m : Model) (pop : Option String) (q : JMems) (r : Resp) (q' : JMems)
    (hok : advancedResults m pop q = .ok (r, q')) :
    ∃ f sel srt tot results,
      jparse (replaceOps ⟨serV (.jobj (reqQueryOf q))⟩) = some f ∧
      selectSpec q = .ok sel ∧ sortSpec q = .ok srt ∧
      m.countDocumentsWith none = .ok tot ∧
      m.exec ⟨f, sel, srt, startIndexOf q, limitOf q, populateOf pop⟩ = .ok results ∧
      r = { success := true, count := results.length,
            pagination := mkPagination (pageOf q) (limitOf q) tot, data := results } ∧
      q' = q := by
  cases hj : jparse (replaceOps ⟨serV (.jobj (reqQueryOf q))⟩) with
  | none => simp [advancedResults, hj, bind, Except.bind] at hok
  | some f =>
    cases hsel : selectSpec q with
    | error e => simp [advancedResults, hj, hsel, bind, Except.bind] at hok
    | ok sel =>
      cases hsrt : sortSpec q with
      | error e => simp [advancedResults, hj, hsel, hsrt, bind, Except.bind] at hok
      | ok srt =>
        cases htot : m.countDocumentsWith none with
        | error e => simp [advancedResults, hj, hsel, hsrt, htot, bind, Except.bind] at hok
        | ok tot =>
          cases hexec : m.exec ⟨f, sel, srt, (pageOf q - 1) * limitOf q, limitOf q, populateOf pop⟩ with
          | error e =>
            simp [advancedResults, hj, hsel, hsrt, htot, hexec, bind, Except.bind] at hok
          | ok results =>
            simp [advancedResults, hj, hsel, hsrt, htot, hexec, bind, Except.bind] at hok
            exact ⟨f, sel, srt, tot, results, rfl, rfl, rfl, rfl, hexec,
              hok.1.symm, hok.2.symm⟩

lemma advancedResults_ok_intro (m : Model) (pop : Option String) (q : JMems)
    (f : JVal) (sel : Option String) (srt : String) (tot : Int) (results : List JVal)
    (hj : jparse (replaceOps ⟨serV (.jobj (reqQueryOf q))⟩) = some f)
    (hsel : selectSpec q = .ok sel) (hsrt : sortSpec q = .ok srt)
    (htot : m.countDocumentsWith none = .ok tot)
    (hexec : m.exec ⟨f, sel, srt, startIndexOf q, limitOf q, populateOf pop⟩ = .ok results) :
    advancedResults m pop q =
      .ok ({ success := true, count := results.length,
             pagination := mkPagination (pageOf q) (limitOf q) tot, data := results }, q) := by
  simp only [startIndexOf] at hexec
  simp [advancedResults, hj, hsel, hsrt, htot, hexec, bind, Except.bind]

lemma advancedResults_parse_fail (m : Model) (pop : Option String) (q : JMems)
    (hj : jparse (replaceOps ⟨serV (.jobj (reqQueryOf q))⟩) = none) :
    advancedResults m pop q = .error "SyntaxError: Unexpected token in JSON" := by
  simp [advancedResults, hj, bind, Except.bind]

lemma advancedResults_count_fail (m : Model) (pop : Option String) (q : JMems)
    (f : JVal) (sel : Option String) (srt : String) (e : String)
    (hj : jparse (replaceOps ⟨serV (.jobj (reqQueryOf q))⟩) = some f)
    (hsel : selectSpec q = .ok sel) (hsrt : sortSpec q = .ok srt)
    (htot : m.countDocumentsWith none = .error e) :
    advancedResults m pop q = .error e := by
  simp [advancedResults, hj, hsel, hsrt, htot, bind, Except.bind]

lemma advancedResults_exec_fail (m : Model) (pop : Option String) (q : JMems)
    (f : JVal) (sel : Option String) (srt : String) (tot : Int) (e : String)
    (hj : jparse (replaceOps ⟨serV (.jobj (reqQueryOf q))⟩) = some f)
    (hsel : selectSpec q = .ok sel) (hsrt : sortSpec q = .ok srt)
    (htot : m.countDocumentsWith none = .ok tot)
    (hexec : m.exec ⟨f, sel, srt, startIndexOf q, limitOf q, populateOf pop⟩ = .error e) :
    advancedResults m pop q = .error e := by
  simp only [startIndexOf] at hexec
  simp [advancedResults, hj, hsel, hsrt, htot, hexec, bind, Except.bind]

lemma jsOr_ne_zero (x : Option Int) (d : Int) (hd : d ≠ 0) : jsOr x d ≠ 0 := by
  cases x with
  | none => simp [jsOr, hd]
  | some n =>
    by_cases h : n = 0
    · simp [jsOr, h, hd]
    · simp [jsOr, h]

/-! ## Claims C1, C2, C9 — pagination arithmetic and the unfiltered total -/

/-- C1: for every invocation whose `page` and `limit` parameters parse
to integers `p ≥ 1` and `l ≥ 1`, the computed `startIndex` is
`(p-1)*l` and `endIndex` is `p*l`, and the attached pagination object
contains `next = {page: p+1, limit: l}` iff `endIndex < total` and
`prev = {page: p-1, limit: l}` iff `startIndex > 0`. -/
theorem C1_pagination_contract (m : Model) (pop : Option String) (q : JMems)
    (r : Resp) (q' : JMems) (tot p l : Int)
    (hok : advancedResults m pop q = .ok (r, q'))
    (htot : m.countDocumentsWith none = .ok tot)
    (hp : parseIntVal (lookupJM q "page") = some p) (hp1 : 1 ≤ p)
    (hl : parseIntVal (lookupJM q "limit") = some l) (hl1 : 1 ≤ l) :
    startIndexOf q = (p - 1) * l ∧ endIndexOf q = p * l ∧
    (r.pagination.next = some (p + 1, l) ↔ endIndexOf q < tot) ∧
    (r.pagination.prev = some (p - 1, l) ↔ startIndexOf q > 0) := by
  obtain ⟨f, sel, srt, tot', results, hj, hsel, hsrt, htot', hexec, hr, hq⟩ :=
    advancedResults_ok m pop q r q' hok
  have htt : tot' = tot := by
    rw [htot] at htot'; exact (Except.ok.inj htot').symm
  have hpage : pageOf q = p := pageOf_eq q p hp (by omega)
  have hlim : limitOf q = l := limitOf_eq q l hl (by omega)
  rw [htt] at hr
  refine ⟨by simp [startIndexOf, hpage, hlim], by simp [endIndexOf, hpage, hlim], ?_, ?_⟩
  · rw [hr]
    simp only [mkPagination, endIndexOf, hpage, hlim]
    by_cases h : p * l < tot <;> simp [h]
  · rw [hr]
    simp only [mkPagination, startIndexOf, hpage, hlim]
    by_cases h : (p - 1) * l > 0 <;> simp [h]

theorem C1_pagination_contract_witness :
    startIndexOf qP2L3 = (2 - 1) * 3 ∧ endIndexOf qP2L3 = 2 * 3 ∧
    ((Pagination.mk (some (3, 3)) (some (1, 3))).next = some (2 + 1, 3) ↔
      endIndexOf qP2L3 < 10) ∧
    ((Pagination.mk (some (3, 3)) (some (1, 3))).prev = some (2 - 1, 3) ↔
      startIndexOf qP2L3 > 0) :=
  C1_pagination_contract (constModel [] 10) none qP2L3
    { success := true, count := 0,
      pagination := Pagination.mk (some (3, 3)) (some (1, 3)), data := [] }
    qP2L3 10 2 3 rfl rfl rfl (by decide) rfl (by decide)

/-- C2: the `total` the pagination decision uses is the unconditional
count of the whole collection (`countDocuments()` with no filter
argument), independent of the active filter: whenever the middleware
succeeds, its pagination object is `mkPagination page limit tot` where
`tot` is what `countDocumentsWith none` returned — the filter (and the
count of documents matching it) plays no part. -/
theorem C2_total_is_unfiltered_count (m : Model) (pop : Option String) (q : JMems)
    (r : Resp) (q' : JMems) (tot : Int)
    (hok : advancedResults m pop q = .ok (r, q'))
    (htot : m.countDocumentsWith none = .ok tot) :
    r.pagination = mkPagination (pageOf q) (limitOf q) tot := by
  obtain ⟨f, sel, srt, tot', results, hj, hsel, hsrt, htot', hexec, hr, hq⟩ :=
    advancedResults_ok m pop q r q' hok
  have htt : tot' = tot := by
    rw [htot] at htot'; exact (Except.ok.inj htot').symm
  rw [htt] at hr
  rw [hr]

theorem C2_total_is_unfiltered_count_witness :
    (Pagination.mk (some (2, 5)) none) = mkPagination (pageOf qLimit5Filter) (limitOf qLimit5Filter) 10 :=
  C2_total_is_unfiltered_count skewModel none qLimit5Filter
    { success := true, count := 1,
      pagination := Pagination.mk (some (2, 5)) none, data := [.jstr "doc"] }
    qLimit5Filter 10 rfl rfl

/-- C9: because the parsed `page`/`limit` are combined with their
defaults by the falsy `||` operator, any request whose `page` parses to
0 uses page 1 (whatever its other parameters), any request whose
`limit` parses to 0 uses limit 1000, and no request whatsoever can
produce a limit of 0 (a zero-size page cannot be requested). -/
theorem C9_zero_is_falsy (q : JMems) :
    (∀ s : String, lookupJM q "page" = some (.jstr s) → parseIntStr s = some 0 →
      pageOf q = 1) ∧
    (∀ t : String, lookupJM q "limit" = some (.jstr t) → parseIntStr t = some 0 →
      limitOf q = 1000) ∧
    limitOf q ≠ 0 := by
  refine ⟨fun s hs hps => ?_, fun t ht hpt => ?_, ?_⟩
  · simp [pageOf, parseIntVal, hs, hps, jsOr]
  · simp [limitOf, parseIntVal, ht, hpt, jsOr]
  · exact jsOr_ne_zero _ _ (by decide)

theorem C9_zero_is_falsy_witness :
    pageOf qP0L50 = 1 ∧ limitOf qL0 = 1000 ∧ limitOf qP2L3 ≠ 0 :=
  ⟨(C9_zero_is_falsy qP0L50).1 "0" rfl rfl,
   (C9_zero_is_falsy qL0).2.1 "0" rfl rfl,
   (C9_zero_is_falsy qP2L3).2.2⟩

/-! ## Claims C5, C6 — filter extraction and defaults -/

/-- C5: filter extraction copies every query parameter into the filter
object except exactly the reserved keys `select`, `sort`, `page`,
`limit`: a reserved key is absent from the extracted filter object, and
any other key is present there with exactly its original value (so it
is present in the filter iff it is present in the query). -/
theorem C5_reserved_keys_excluded (q : JMems) (k : String) :
    (k ∈ removeFields → lookupJM (reqQueryOf q) k = none) ∧
    (k ∉ removeFields → lookupJM (reqQueryOf q) k = lookupJM q k) := by
  refine ⟨fun h => ?_, fun h => ?_⟩ <;> simp [lookupJM_reqQueryOf, h]

theorem C5_reserved_keys_excluded_witness :
    lookupJM (reqQueryOf qSortPrice) "sort" = none ∧
    lookupJM (reqQueryOf qSortPrice) "price" = lookupJM qSortPrice "price" :=
  ⟨(C5_reserved_keys_excluded qSortPrice "sort").1 (by decide),
   (C5_reserved_keys_excluded qSortPrice "price").2 (by decide)⟩

/-- C6: three independent defaults: when `sort` is absent the sort spec
is `name` (ascending), whatever `page`/`limit` are; when `page` is
absent or non-numeric the page used is 1; when `limit` is absent or
non-numeric the limit used is 1000. -/
theorem C6_defaults (q : JMems) :
    (lookupJM q "sort" = none → sortSpec q = .ok "name") ∧
    (parseIntVal (lookupJM q "page") = none → pageOf q = 1) ∧
    (parseIntVal (lookupJM q "limit") = none → limitOf q = 1000) := by
  refine ⟨fun hs => ?_, fun hp => ?_, fun hl => ?_⟩
  · simp [sortSpec, hs]
  · simp [pageOf, hp, jsOr]
  · simp [limitOf, hl, jsOr]

theorem C6_defaults_witness :
    sortSpec qPage2 = .ok "name" ∧ pageOf qSortOnly = 1 ∧ limitOf qPage2 = 1000 :=
  ⟨(C6_defaults qPage2).1 rfl, (C6_defaults qSortOnly).2.1 rfl,
   (C6_defaults qPage2).2.2 rfl⟩

/-! ## Claims C7, C8, C10 — output shape, absence of validation, no mutation -/

/-- C7: on every invocation in which the database operations succeed
(and the filter deserialized), the middleware attaches exactly
`{success: true, count: results.length, pagination, data: results}` and
passes the request through: it raises no error of its own — `success` is
always `true` and `count` always equals the length of `data` — while a
count or query failure of the collection, or a deserialization failure,
propagates unchanged to the caller. -/
theorem C7_output_shape (m : Model) (pop : Option String) (q : JMems)
    (f : JVal) (sel : Option String) (srt : String) (tot : Int) (results : List JVal)
    (hj : jparse (replaceOps ⟨serV (.jobj (reqQueryOf q))⟩) = some f)
    (hsel : selectSpec q = .ok sel) (hsrt : sortSpec q = .ok srt)
    (htot : m.countDocumentsWith none = .ok tot)
    (hexec : m.exec ⟨f, sel, srt, startIndexOf q, limitOf q, populateOf pop⟩ = .ok results) :
    advancedResults m pop q =
      .ok ({ success := true, count := results.length,
             pagination := mkPagination (pageOf q) (limitOf q) tot, data := results }, q) ∧
    (∀ m₂ : Model, ∀ e : String, m₂.countDocumentsWith none = .error e →
      advancedResults m₂ pop q = .error e) ∧
    (∀ m₂ : Model, ∀ tot₂ : Int, ∀ e : String, m₂.countDocumentsWith none = .ok tot₂ →
      m₂.exec ⟨f, sel, srt, startIndexOf q, limitOf q, populateOf pop⟩ = .error e →
      advancedResults m₂ pop q = .error e) ∧
    (∀ q₂ : JMems, jparse (replaceOps ⟨serV (.jobj (reqQueryOf q₂))⟩) = none →
      advancedResults m pop q₂ = .error "SyntaxError: Unexpected token in JSON") := by
  refine ⟨advancedResults_ok_intro m pop q f sel srt tot results hj hsel hsrt htot hexec,
    fun m₂ e h => advancedResults_count_fail m₂ pop q f sel srt e hj hsel hsrt h,
    fun m₂ tot₂ e h1 h2 => advancedResults_exec_fail m₂ pop q f sel srt tot₂ e hj hsel hsrt h1 h2,
    fun q₂ h => advancedResults_parse_fail m pop q₂ h⟩

theorem C7_output_shape_witness :
    advancedResults (constModel [.jstr "doc"] 7) none qSortPrice =
      .ok ({ success := true, count := [JVal.jstr "doc"].length,
             pagination := mkPagination (pageOf qSortPrice) (limitOf qSortPrice) 7,
             data := [.jstr "doc"] }, qSortPrice) :=
  (C7_output_shape (constModel [.jstr "doc"] 7) none qSortPrice
    (.jobj (.cons "price" (.jstr "10") .nil)) none "-name price" 7 [.jstr "doc"]
    rfl rfl rfl rfl rfl).1

/-- C8: `page` and `limit` parameter values that denote negative or
fractional numbers are not rejected, whichever of the two parameters
carries the offending value: no validation exists, the middleware
completes without an error of its own (given the surrounding steps
succeed just as they would for any other value), and
`startIndex`/`endIndex` are still computed by the same formulas with
the parsed value used as-is — a value that is not a fractional literal
parses negative and is used verbatim as the page or the limit, and a
negative page with a positive limit yields a nonsensical negative
`startIndex`. -/
theorem C8_no_page_limit_validation (m : Model) (pop : Option String) (q : JMems)
    (f : JVal) (sel : Option String) (srt : String) (tot : Int) (results : List JVal)
    (ps : String)
    (hbad : (lookupJM q "page" = some (.jstr ps) ∨ lookupJM q "limit" = some (.jstr ps)) ∧
      negOrFracStr ps = true)
    (hj : jparse (replaceOps ⟨serV (.jobj (reqQueryOf q))⟩) = some f)
    (hsel : selectSpec q = .ok sel) (hsrt : sortSpec q = .ok srt)
    (htot : m.countDocumentsWith none = .ok tot)
    (hexec : m.exec ⟨f, sel, srt, startIndexOf q, limitOf q, populateOf pop⟩ = .ok results) :
    advancedResults m pop q =
      .ok ({ success := true, count := results.length,
             pagination := mkPagination (pageOf q) (limitOf q) tot, data := results }, q) ∧
    startIndexOf q = (pageOf q - 1) * limitOf q ∧
    endIndexOf q = pageOf q * limitOf q ∧
    (∀ p : Int, parseIntStr ps = some p → ¬ ps.data.contains '.' = true → p < 0) ∧
    (∀ p : Int, parseIntStr ps = some p → p ≠ 0 →
      (lookupJM q "page" = some (.jstr ps) → pageOf q = p) ∧
      (lookupJM q "limit" = some (.jstr ps) → limitOf q = p)) ∧
    (∀ p : Int, lookupJM q "page" = some (.jstr ps) → parseIntStr ps = some p →
      p < 0 → 0 < limitOf q → startIndexOf q < 0) := by
  refine ⟨advancedResults_ok_intro m pop q f sel srt tot results hj hsel hsrt htot hexec,
    rfl, rfl, fun p hps hdot => ?_, fun p hps hp0 => ⟨fun hpg => ?_, fun hlm => ?_⟩,
    fun p hpg hps hneg hlim => ?_⟩
  · have h2 := hbad.2
    rw [negOrFracStr, hps] at h2
    rcases Bool.or_eq_true_iff.mp h2 with h3 | h3
    · exact of_decide_eq_true h3
    · exact absurd h3 hdot
  · exact pageOf_eq q p (by simp [parseIntVal, hpg, hps]) hp0
  · exact limitOf_eq q p (by simp [parseIntVal, hlm, hps]) hp0
  · have hpage : pageOf q = p := pageOf_eq q p (by simp [parseIntVal, hpg, hps]) (by omega)
    have hlt : pageOf q - 1 < 0 := by omega
    calc startIndexOf q = (pageOf q - 1) * limitOf q := rfl
      _ < 0 := mul_neg_of_neg_of_pos hlt hlim

theorem C8_no_page_limit_validation_witness :
    (advancedResults (constModel [] 0) none qLimNeg =
      .ok ({ success := true, count := ([] : List JVal).length,
             pagination := mkPagination (pageOf qLimNeg) (limitOf qLimNeg) 0,
             data := [] }, qLimNeg)) ∧
    limitOf qLimNeg = -5 := by
  have h := C8_no_page_limit_validation (constModel [] 0) none qLimNeg
    (.jobj .nil) none "name" 0 [] "-5" ⟨Or.inr rfl, by decide⟩ rfl rfl rfl rfl rfl
  exact ⟨h.1, ((h.2.2.2.2.1 (-5) rfl (by decide)).2) rfl⟩

/-- C10: the middleware never mutates the incoming query mapping: the
reserved keys are deleted only from the shallow copy, the original
mapping still holds every binding it held before, and the `select` and
`sort` steps read their values from the original mapping (so they still
take effect even though both keys are gone from the copy the filter is
built from). -/
theorem C10_query_not_mutated (m : Model) (pop : Option String) (q : JMems)
    (r : Resp) (q' : JMems)
    (hok : advancedResults m pop q = .ok (r, q')) :
    q' = q ∧ (∀ k : String, lookupJM q' k = lookupJM q k) ∧
    (∀ s : String, lookupJM q "sort" = some (.jstr s) → ¬ s = "" →
      sortSpec q = .ok (splitJoin s) ∧ lookupJM (reqQueryOf q) "sort" = none) ∧
    (∀ s : String, lookupJM q "select" = some (.jstr s) → ¬ s = "" →
      selectSpec q = .ok (some (splitJoin s)) ∧ lookupJM (reqQueryOf q) "select" = none) := by
  obtain ⟨f, sel, srt, tot', results, hj, hsel, hsrt, htot', hexec, hr, hq⟩ :=
    advancedResults_ok m pop q r q' hok
  subst hq
  refine ⟨rfl, fun k => rfl, fun s hs hne => ⟨?_, ?_⟩, fun s hs hne => ⟨?_, ?_⟩⟩
  · simp [sortSpec, hs, hne]
  · simp [lookupJM_reqQueryOf, removeFields]
  · simp [selectSpec, hs, hne]
  · simp [lookupJM_reqQueryOf, removeFields]

theorem C10_query_not_mutated_witness :
    qSortPrice = qSortPrice ∧
    sortSpec qSortPrice = .ok (splitJoin "-name,price") ∧
    lookupJM (reqQueryOf qSortPrice) "sort" = none := by
  have h := C10_query_not_mutated (constModel [] 0) none qSortPrice
    { success := true, count := 0,
      pagination := mkPagination (pageOf qSortPrice) (limitOf qSortPrice) 0, data := [] }
    qSortPrice rfl
  exact ⟨h.1, (h.2.2.1 "-name,price" rfl (by decide)).1, (h.2.2.1 "-name,price" rfl (by decide)).2⟩

/-! ## The serializer/parser round trip -/

lemma hexDigitVal_hexDigitChar (d : Nat) (hd : d < 16) : hexDigitVal (hexDigitChar d) = some d := by
  interval_cases d <;> decide

lemma hexDigitVal_zero : hexDigitVal '0' = some 0 := by decide

lemma psb_quote (rest : List Char) : parseStrBody ('"' :: rest) = some ([], rest) := rfl

lemma psb_esc_back (rest : List Char) :
    parseStrBody ('\\' :: '\\' :: rest) = strCons '\\' (parseStrBody rest) := rfl

lemma psb_esc_quote (rest : List Char) :
    parseStrBody ('\\' :: '"' :: rest) = strCons '"' (parseStrBody rest) := rfl

lemma psb_esc_n (rest : List Char) :
    parseStrBody ('\\' :: 'n' :: rest) = strCons (Char.ofNat 10) (parseStrBody rest) := rfl

lemma psb_esc_t (rest : List Char) :
    parseStrBody ('\\' :: 't' :: rest) = strCons (Char.ofNat 9) (parseStrBody rest) := rfl

lemma psb_esc_r (rest : List Char) :
    parseStrBody ('\\' :: 'r' :: rest) = strCons (Char.ofNat 13) (parseStrBody rest) := rfl

lemma psb_esc_b (rest : List Char) :
    parseStrBody ('\\' :: 'b' :: rest) = strCons (Char.ofNat 8) (parseStrBody rest) := rfl

lemma psb_esc_f (rest : List Char) :
    parseStrBody ('\\' :: 'f' :: rest) = strCons (Char.ofNat 12) (parseStrBody rest) := rfl

lemma psb_esc_u (a b c2 d : Char) (rest : List Char) :
    parseStrBody ('\\' :: 'u' :: a :: b :: c2 :: d :: rest) =
      match hexDigitVal a, hexDigitVal b, hexDigitVal c2, hexDigitVal d with
      | some x, some y, some z, some w =>
        strCons (Char.ofNat (4096 * x + 256 * y + 16 * z + w)) (parseStrBody rest)
      | _, _, _, _ => none := rfl

set_option maxHeartbeats 1000000 in
lemma psb_plain (c : Char) (rest : List Char) (h1 : ¬ c = '"') (h2 : ¬ c = '\\')
    (h3 : ¬ c.toNat < 32) : parseStrBody (c :: rest) = strCons c (parseStrBody rest) := by
  rw [parseStrBody.eq_def]
  split <;> simp_all

lemma char_eq_of_toNat {c : Char} {n : Nat} (h : c.toNat = n) : c = Char.ofNat n := by
  rw [← h, Char.ofNat_toNat]

lemma parseStrBody_escChar (c : Char) (rest : List Char) (s r : List Char)
    (h : parseStrBody rest = some (s, r)) :
    parseStrBody (escChar c ++ rest) = some (c :: s, r) := by
  by_cases h1 : c.toNat = 92
  · rw [char_eq_of_toNat h1]
    rw [show escChar (Char.ofNat 92) ++ rest = '\\' :: '\\' :: rest from rfl,
      psb_esc_back, h]
    rfl
  by_cases h2 : c.toNat = 34
  · rw [char_eq_of_toNat h2]
    rw [show escChar (Char.ofNat 34) ++ rest = '\\' :: '"' :: rest from rfl,
      psb_esc_quote, h]
    rfl
  by_cases h3 : c.toNat = 10
  · rw [char_eq_of_toNat h3]
    rw [show escChar (Char.ofNat 10) ++ rest = '\\' :: 'n' :: rest from rfl,
      psb_esc_n, h]
    rfl
  by_cases h4 : c.toNat = 9
  · rw [char_eq_of_toNat h4]
    rw [show escChar (Char.ofNat 9) ++ rest = '\\' :: 't' :: rest from rfl,
      psb_esc_t, h]
    rfl
  by_cases h5 : c.toNat = 13
  · rw [char_eq_of_toNat h5]
    rw [show escChar (Char.ofNat 13) ++ rest = '\\' :: 'r' :: rest from rfl,
      psb_esc_r, h]
    rfl
  by_cases h6 : c.toNat = 8
  · rw [char_eq_of_toNat h6]
    rw [show escChar (Char.ofNat 8) ++ rest = '\\' :: 'b' :: rest from rfl,
      psb_esc_b, h]
    rfl
  by_cases h7 : c.toNat = 12
  · rw [char_eq_of_toNat h7]
    rw [show escChar (Char.ofNat 12) ++ rest = '\\' :: 'f' :: rest from rfl,
      psb_esc_f, h]
    rfl
  by_cases h8 : c.toNat < 32
  · have hesc : escChar c =
        ['\\', 'u', '0', '0', hexDigitChar (c.toNat / 16), hexDigitChar (c.toNat % 16)] := by
      simp only [escChar]
      simp [h1, h2, h3, h4, h5, h6, h7, h8]
    have hhi : c.toNat / 16 < 16 := by omega
    have hlo : c.toNat % 16 < 16 := by omega
    rw [hesc]
    rw [show ['\\', 'u', '0', '0', hexDigitChar (c.toNat / 16), hexDigitChar (c.toNat % 16)]
        ++ rest =
      '\\' :: 'u' :: '0' :: '0' :: hexDigitChar (c.toNat / 16) ::
        hexDigitChar (c.toNat % 16) :: rest from rfl]
    rw [psb_esc_u, hexDigitVal_zero,
      hexDigitVal_hexDigitChar _ hhi, hexDigitVal_hexDigitChar _ hlo]
    show strCons (Char.ofNat (4096 * 0 + 256 * 0 + 16 * (c.toNat / 16) + c.toNat % 16))
      (parseStrBody rest) = some (c :: s, r)
    have hn : 4096 * 0 + 256 * 0 + 16 * (c.toNat / 16) + c.toNat % 16 = c.toNat := by omega
    rw [hn, Char.ofNat_toNat, h]
    rfl
  · have hesc : escChar c = [c] := by
      simp only [escChar]
      simp [h1, h2, h3, h4, h5, h6, h7, h8]
    have hq : ¬ c = '"' := fun hc => h2 (by rw [hc]; rfl)
    have hb : ¬ c = '\\' := fun hc => h1 (by rw [hc]; rfl)
    rw [hesc, List.cons_append, List.nil_append, psb_plain c rest hq hb h8, h]
    rfl

lemma parseStrBody_escape (cs : List Char) : ∀ rest : List Char,
    parseStrBody (escape cs ++ '"' :: rest) = some (cs, rest) := by
  induction cs with
  | nil => intro rest; simp [escape, psb_quote]
  | cons c cs ih =>
    intro rest
    have hstep : escape (c :: cs) = escChar c ++ escape cs := by
      simp [escape]
    rw [hstep, List.append_assoc]
    exact parseStrBody_escChar c _ _ _ (ih rest)

lemma pf_str (f : Nat) (cs : List Char) :
    parseF (f + 1) false ('"' :: cs) =
      (parseStrBody cs).map (fun p => (.jstr ⟨p.1⟩, p.2)) := rfl

lemma pf_obj_empty (f : Nat) (cs : List Char) :
    parseF (f + 1) false ('{' :: '}' :: cs) = some (.jobj .nil, cs) := rfl

lemma pf_obj_quote (f : Nat) (cs : List Char) :
    parseF (f + 1) false ('{' :: '"' :: cs) = parseF f true ('"' :: cs) := rfl

lemma pf_mems_raw (f : Nat) (cs : List Char) :
    parseF (f + 1) true ('"' :: cs) =
      match parseStrBody cs with
      | some (k, ':' :: cs1) =>
        match parseF f false cs1 with
        | some (v, ',' :: cs2) =>
          match parseF f true cs2 with
          | some (.jobj m, cs3) => some (.jobj (.cons ⟨k⟩ v m), cs3)
          | _ => none
        | some (v, '}' :: cs2) => some (.jobj (.cons ⟨k⟩ v .nil), cs2)
        | _ => none
      | _ => none := rfl

lemma pf_mems_step_last (f : Nat) (cs k cs1 : List Char) (v : JVal) (rest : List Char)
    (hk : parseStrBody cs = some (k, ':' :: cs1))
    (hv : parseF f false cs1 = some (v, '}' :: rest)) :
    parseF (f + 1) true ('"' :: cs) = some (.jobj (.cons ⟨k⟩ v .nil), rest) := by
  rw [pf_mems_raw, hk]
  simp only [hv]

lemma pf_mems_step_cons (f : Nat) (cs k cs1 : List Char) (v : JVal) (cs2 : List Char)
    (m : JMems) (rest : List Char)
    (hk : parseStrBody cs = some (k, ':' :: cs1))
    (hv : parseF f false cs1 = some (v, ',' :: cs2))
    (hm : parseF f true cs2 = some (.jobj m, rest)) :
    parseF (f + 1) true ('"' :: cs) = some (.jobj (.cons ⟨k⟩ v m), rest) := by
  rw [pf_mems_raw, hk]
  simp only [hv, hm]

mutual
theorem parseF_serV : ∀ (v : JVal) (f : Nat) (rest : List Char), fuelV v ≤ f →
    parseF f false (serV v ++ rest) = some (v, rest)
  | .jstr s, f, rest, hf => by
    cases f with
    | zero => simp [fuelV] at hf
    | succ f' =>
      rw [show serV (.jstr s) ++ rest = '"' :: (escape s.data ++ '"' :: rest) by
        simp [serV]]
      rw [pf_str, parseStrBody_escape]
      rfl
  | .jobj .nil, f, rest, hf => by
    cases f with
    | zero => simp [fuelV, fuelM] at hf
    | succ f' =>
      rw [show serV (.jobj .nil) ++ rest = '{' :: '}' :: rest by simp [serV, serM]]
      exact pf_obj_empty f' rest
  | .jobj (.cons k v m), f, rest, hf => by
    cases f with
    | zero => simp [fuelV, fuelM] at hf
    | succ f' =>
      have hfm : fuelM (.cons k v m) ≤ f' := by
        simp only [fuelV] at hf; omega
      have hM := parseF_serM (.cons k v m) f' rest hfm (by intro h; exact JMems.noConfusion h)
      obtain ⟨t, ht⟩ : ∃ t, serM (.cons k v m) = '"' :: t := by
        cases m <;> exact ⟨_, rfl⟩
      rw [show serV (.jobj (.cons k v m)) ++ rest =
        '{' :: (serM (.cons k v m) ++ '}' :: rest) by simp [serV]]
      rw [ht] at hM ⊢
      rw [List.cons_append, pf_obj_quote]
      exact hM
theorem parseF_serM : ∀ (m : JMems) (f : Nat) (rest : List Char), fuelM m ≤ f →
    m ≠ .nil → parseF f true (serM m ++ '}' :: rest) = some (.jobj m, rest)
  | .nil, _, _, _, hne => absurd rfl hne
  | .cons k v m', f, rest, hf, _ => by
    cases f with
    | zero => simp [fuelM] at hf
    | succ f' =>
      have hfv : fuelV v ≤ f' := by
        simp only [fuelM] at hf
        have := Nat.le_max_left (fuelV v) (fuelM m')
        omega
      have hfm : fuelM m' ≤ f' := by
        simp only [fuelM] at hf
        have := Nat.le_max_right (fuelV v) (fuelM m')
        omega
      cases m' with
      | nil =>
        rw [show serM (.cons k v .nil) ++ '}' :: rest =
          '"' :: (escape k.data ++ '"' :: (':' :: (serV v ++ '}' :: rest))) by
            simp [serM]]
        exact pf_mems_step_last f' _ k.data _ v rest
          (parseStrBody_escape k.data (':' :: (serV v ++ '}' :: rest)))
          (parseF_serV v f' ('}' :: rest) hfv)
      | cons k2 v2 m2 =>
        rw [show serM (.cons k v (.cons k2 v2 m2)) ++ '}' :: rest =
          '"' :: (escape k.data ++ '"' :: (':' :: (serV v ++
            ',' :: (serM (.cons k2 v2 m2) ++ '}' :: rest)))) by
            simp [serM]]
        exact pf_mems_step_cons f' _ k.data _ v _ (.cons k2 v2 m2) rest
          (parseStrBody_escape k.data
            (':' :: (serV v ++ ',' :: (serM (.cons k2 v2 m2) ++ '}' :: rest))))
          (parseF_serV v f' (',' :: (serM (.cons k2 v2 m2) ++ '}' :: rest)) hfv)
          (parseF_serM (.cons k2 v2 m2) f' rest hfm (by intro h; exact JMems.noConfusion h))
end

mutual
theorem fuelV_le_length : ∀ v : JVal, fuelV v ≤ (serV v).length
  | .jstr s => by simp [fuelV, serV]
  | .jobj m => by
    have hm := fuelM_le_length m
    simp only [fuelV, serV, List.length_cons, List.length_append,
      List.length_singleton]
    omega
theorem fuelM_le_length : ∀ m : JMems, fuelM m ≤ (serM m).length + 1
  | .nil => by simp [fuelM, serM]
  | .cons k v .nil => by
    have hv := fuelV_le_length v
    simp only [fuelM, fuelM.eq_1, serM, List.length_cons, List.length_append]
    omega
  | .cons k v (.cons k2 v2 m2) => by
    have hv := fuelV_le_length v
    have hm := fuelM_le_length (.cons k2 v2 m2)
    simp only [fuelM, serM, List.length_cons, List.length_append] at hm ⊢
    omega
end

/-- `JSON.parse` inverts `JSON.stringify` on the fragment. -/
theorem jparse_serV (v : JVal) : jparse ⟨serV v⟩ = some v := by
  have h := parseF_serV v ((serV v).length + 1) [] (by
    have := fuelV_le_length v
    omega)
  simp only [List.append_nil] at h
  simp only [jparse, h]

/-! ## The operator rewrite: scanner vs run-based description -/

lemma scan_step (c : Char) (cs : List Char) :
    scan 0 false (c :: cs) =
      match tokAt (c :: cs) with
      | some tok => '$' :: tok ++ scan (tok.length - 1) true cs
      | none => c :: scan 0 (isW c) cs := rfl

lemma scan_true_step (c : Char) (cs : List Char) :
    scan 0 true (c :: cs) = c :: scan 0 (isW c) cs := rfl

lemma scan_skip_step (k : Nat) (b : Bool) (c : Char) (cs : List Char) :
    scan (k + 1) b (c :: cs) = scan k true cs := rfl

lemma tokAt_sound (l t : List Char) (h : tokAt l = some t) :
    t ∈ toksL ∧ ∃ rest', l = t ++ rest' ∧ wordB rest' = false := by
  rw [tokAt.eq_def] at h
  split at h <;>
    first
      | (rename_i rest hne
         cases hw : wordB rest with
         | true => rw [hw] at h; simp at h
         | false =>
           rw [hw] at h
           simp at h
           subst h
           exact ⟨by simp [toksL], rest, rfl, hw⟩)
      | (rename_i rest
         cases hw : wordB rest with
         | true => rw [hw] at h; simp at h
         | false =>
           rw [hw] at h
           simp at h
           subst h
           exact ⟨by simp [toksL], rest, rfl, hw⟩)
      | cases h

lemma splitRuns_cons (c : Char) (cs : List Char) :
    splitRuns (c :: cs) =
      match splitRuns cs with
      | [] => [[c]]
      | [] :: rs => [c] :: [] :: rs
      | (d :: r) :: rs =>
        if isW c == isW d then (c :: d :: r) :: rs else [c] :: (d :: r) :: rs := rfl

lemma splitRuns_head (d : Char) (ds : List Char) :
    ∃ r rs, splitRuns (d :: ds) = (d :: r) :: rs := by
  rw [splitRuns_cons]
  cases hs : splitRuns ds with
  | nil => exact ⟨[], [], rfl⟩
  | cons r0 rs =>
    cases r0 with
    | nil => exact ⟨[], [] :: rs, rfl⟩
    | cons e r =>
      by_cases h : isW d == isW e
      · simp only [h, if_true]; exact ⟨e :: r, rs, by simp⟩
      · simp only [Bool.not_eq_true] at h
        simp only [h, if_false]
        exact ⟨[], (e :: r) :: rs, by simp⟩

lemma splitRuns_flatten : ∀ cs : List Char, (splitRuns cs).flatten = cs := by
  intro cs
  induction cs with
  | nil => rfl
  | cons c cs ih =>
    rw [splitRuns_cons]
    cases hs : splitRuns cs with
    | nil =>
      rw [hs] at ih
      simp at ih
      simp [ih]
    | cons r0 rs =>
      rw [hs] at ih
      cases r0 with
      | nil => simp_all
      | cons e r =>
        by_cases h : isW c == isW e
        · simp only [h, if_true]
          simp_all
        · simp only [Bool.not_eq_true] at h
          simp only [h, if_false]
          simp_all

lemma splitRuns_append_run : ∀ (r : List Char) (w : Bool) (rest : List Char), r ≠ [] →
    (∀ c ∈ r, isW c = w) → (rest = [] ∨ ∃ d ds, rest = d :: ds ∧ isW d = !w) →
    splitRuns (r ++ rest) = r :: splitRuns rest := by
  intro r
  induction r with
  | nil => intro w rest hne _ _; exact absurd rfl hne
  | cons x r' ih =>
    intro w rest _ hr hrest
    have hx : isW x = w := hr x (by simp)
    cases r' with
    | nil =>
      rcases hrest with rfl | ⟨d, ds, rfl, hd⟩
      · rfl
      · obtain ⟨r₂, rs₂, hsd⟩ := splitRuns_head d ds
        rw [List.cons_append, List.nil_append, splitRuns_cons, hsd]
        have hne : (isW x == isW d) = false := by
          rw [hx, hd]; cases w <;> rfl
        simp only [hne, Bool.false_eq_true, if_false]
    | cons y r'' =>
      have hy : isW y = w := hr y (by simp)
      have ihy := ih w rest (by simp) (fun c hc => hr c (by simp [hc])) hrest
      simp only [List.cons_append] at ihy ⊢
      rw [splitRuns_cons, ihy]
      have heq : (isW x == isW y) = true := by rw [hx, hy]; cases w <;> rfl
      simp only [heq, if_true]

lemma rwSpec_cons_run (r rest : List Char) (h : splitRuns (r ++ rest) = r :: splitRuns rest) :
    rwSpec (r ++ rest) = rwRun r ++ rwSpec rest := by
  simp [rwSpec, h]

lemma toks_allW : ∀ t ∈ toksL, ∀ c ∈ t, isW c = true := by decide

lemma toks_ne_nil : ∀ t ∈ toksL, t ≠ [] := by decide

lemma tokAt_nonword (d : Char) (t : List Char) (h : isW d = false) :
    tokAt (d :: t) = none := by
  cases htok : tokAt (d :: t) with
  | none => rfl
  | some tok =>
    exfalso
    obtain ⟨hmem, rest', heq, _⟩ := tokAt_sound _ _ htok
    obtain ⟨c0, tok', rfl⟩ : ∃ c0 tok', tok = c0 :: tok' := by
      cases tok with
      | nil => exact absurd rfl (toks_ne_nil _ hmem)
      | cons a b => exact ⟨a, b, rfl⟩
    simp only [List.cons_append] at heq
    injection heq with h1 _
    have hw0 : isW c0 = true := toks_allW _ hmem c0 (by simp)
    rw [← h1] at hw0
    rw [hw0] at h
    cases h

lemma run_eq : ∀ (r t rest rest' : List Char),
    (∀ c ∈ r, isW c = true) → (∀ c ∈ t, isW c = true) →
    wordB rest = false → wordB rest' = false →
    r ++ rest = t ++ rest' → r = t ∧ rest = rest' := by
  intro r
  induction r with
  | nil =>
    intro t rest rest' _ ht hw _ heq
    cases t with
    | nil => exact ⟨rfl, by simpa using heq⟩
    | cons d t' =>
      exfalso
      simp only [List.nil_append, List.cons_append] at heq
      rw [heq] at hw
      simp only [wordB] at hw
      exact absurd (ht d (by simp)) (by simp [hw])
  | cons c r' ih =>
    intro t rest rest' hr ht hw hw' heq
    cases t with
    | nil =>
      exfalso
      simp only [List.cons_append, List.nil_append] at heq
      rw [← heq] at hw'
      simp only [wordB] at hw'
      exact absurd (hr c (by simp)) (by simp [hw'])
    | cons d t' =>
      simp only [List.cons_append] at heq
      injection heq with h1 h2
      subst h1
      obtain ⟨hrt, hrr⟩ := ih t' rest rest'
        (fun x hx => hr x (by simp [hx])) (fun x hx => ht x (by simp [hx])) hw hw' h2
      exact ⟨by rw [hrt], hrr⟩

lemma tokAt_none_of_run (r rest : List Char)
    (hr : ∀ c ∈ r, isW c = true) (hw : wordB rest = false) (hnt : r ∉ toksL) :
    tokAt (r ++ rest) = none := by
  cases htok : tokAt (r ++ rest) with
  | none => rfl
  | some tok =>
    exfalso
    obtain ⟨hmem, rest', heq, hw'⟩ := tokAt_sound _ _ htok
    obtain ⟨rfl, -⟩ := run_eq r tok rest rest' hr (toks_allW _ hmem) hw hw' heq
    exact hnt hmem

lemma tokAt_of_tok (t rest : List Char) (ht : t ∈ toksL) (hw : wordB rest = false) :
    tokAt (t ++ rest) = some t := by
  have he : isW 'e' = true := by decide
  simp only [toksL, List.mem_cons, List.not_mem_nil, or_false] at ht
  rcases ht with rfl | rfl | rfl | rfl | rfl <;>
    · simp only [List.cons_append, List.nil_append]
      rw [tokAt.eq_def]
      split <;> try simp_all [wordB]
      all_goals (rename_i hno heq; exact absurd heq.symm (hno _))

lemma scan_nonword_copy : ∀ (r rest : List Char), (∀ c ∈ r, isW c = false) →
    scan 0 false (r ++ rest) = r ++ scan 0 false rest := by
  intro r
  induction r with
  | nil => intro rest _; rfl
  | cons d r' ih =>
    intro rest hr
    have hd : isW d = false := hr d (by simp)
    rw [List.cons_append, scan_step]
    simp only [tokAt_nonword d _ hd]
    rw [hd, ih rest (fun c hc => hr c (by simp [hc]))]
    rfl

lemma scan_true_of_nonword_head (rest : List Char) (hw : wordB rest = false) :
    scan 0 true rest = scan 0 false rest := by
  cases rest with
  | nil => rfl
  | cons d ds =>
    simp only [wordB] at hw
    rw [scan_true_step, scan_step]
    simp only [tokAt_nonword d ds hw]

lemma scan_word_copy_true : ∀ (r rest : List Char), (∀ c ∈ r, isW c = true) →
    scan 0 true (r ++ rest) = r ++ scan 0 true rest := by
  intro r
  induction r with
  | nil => intro rest _; rfl
  | cons d r' ih =>
    intro rest hr
    have hd : isW d = true := hr d (by simp)
    rw [List.cons_append, scan_true_step, hd, ih rest (fun c hc => hr c (by simp [hc])),
      List.cons_append]

lemma scan_swallow : ∀ (t rest : List Char), scan t.length true (t ++ rest) = scan 0 true rest := by
  intro t
  induction t with
  | nil => intro rest; rfl
  | cons c t' ih =>
    intro rest
    rw [List.cons_append, List.length_cons, scan_skip_step, ih rest]

lemma length_dropWhile_le (p : Char → Bool) : ∀ l : List Char,
    (l.dropWhile p).length ≤ l.length := by
  intro l
  induction l with
  | nil => simp [List.dropWhile]
  | cons c cs ih =>
    by_cases h : p c
    · rw [List.dropWhile_cons]
      simp only [h, if_true]
      exact Nat.le_trans ih (by simp)
    · rw [List.dropWhile_cons]
      simp [h]

lemma dropWhile_head_cases (p : Char → Bool) : ∀ l : List Char,
    l.dropWhile p = [] ∨ ∃ d ds, l.dropWhile p = d :: ds ∧ p d = false := by
  intro l
  induction l with
  | nil => left; rfl
  | cons c cs ih =>
    by_cases h : p c
    · rw [List.dropWhile_cons]
      simp only [h, if_true]
      exact ih
    · right
      refine ⟨c, cs, ?_, by simp [h]⟩
      rw [List.dropWhile_cons]
      simp [h]

/-- The scanner of the source's regex replace computes exactly the
specification's run rewrite: every maximal word run equal to a reserved
word is `$`-prefixed, everything else is copied. -/
theorem scan_eq_rwSpec : ∀ cs : List Char, scan 0 false cs = rwSpec cs := by
  have main : ∀ n : Nat, ∀ cs : List Char, cs.length ≤ n → scan 0 false cs = rwSpec cs := by
    intro n
    induction n with
    | zero =>
      intro cs hcs
      rw [List.length_eq_zero.mp (Nat.le_zero.mp hcs)]
      rfl
    | succ n ih =>
      intro cs hcs
      cases cs with
      | nil => rfl
      | cons c cs' =>
        set p : Char → Bool := fun d => isW d == isW c with hp
        set tw : List Char := cs'.takeWhile p with htw
        set rest : List Char := cs'.dropWhile p with hrest
        have hsplit : c :: cs' = (c :: tw) ++ rest := by
          rw [htw, hrest, List.cons_append, List.takeWhile_append_dropWhile]
        have hrunW : ∀ d ∈ c :: tw, isW d = isW c := by
          intro d hd
          rcases List.mem_cons.mp hd with rfl | hd
          · rfl
          · have hmem := List.mem_takeWhile_imp (htw ▸ hd)
            exact beq_iff_eq.mp hmem
        have hrestW : rest = [] ∨ ∃ d ds, rest = d :: ds ∧ isW d = !(isW c) := by
          rcases dropWhile_head_cases p cs' with h | ⟨d, ds, h, hpd⟩
          · left; rw [hrest]; exact h
          · right
            refine ⟨d, ds, by rw [hrest]; exact h, ?_⟩
            have hne : ¬ isW d = isW c := by
              intro hdc
              rw [hp] at hpd
              simp only [beq_eq_false_iff_ne, ne_eq] at hpd
              exact hpd hdc
            exact Bool.eq_not_of_ne hne
        have hrestlen : rest.length ≤ n := by
          have h1 : rest.length ≤ cs'.length := by
            rw [hrest]; exact length_dropWhile_le p cs'
          have h2 : cs'.length + 1 ≤ n + 1 := by simpa using hcs
          omega
        have hruns : splitRuns ((c :: tw) ++ rest) = (c :: tw) :: splitRuns rest :=
          splitRuns_append_run (c :: tw) (isW c) rest (by simp) hrunW hrestW
        have hrw : rwSpec ((c :: tw) ++ rest) = rwRun (c :: tw) ++ rwSpec rest :=
          rwSpec_cons_run (c :: tw) rest hruns
        rw [hsplit, hrw]
        cases hcw : isW c with
        | false =>
          have hallf : ∀ d ∈ c :: tw, isW d = false := fun d hd => (hrunW d hd).trans hcw
          have hnt : (c :: tw) ∉ toksL := by
            intro hmem
            have := toks_allW _ hmem c (by simp)
            rw [this] at hcw
            cases hcw
          rw [scan_nonword_copy (c :: tw) rest hallf, ih rest hrestlen]
          simp [rwRun, hnt]
        | true =>
          have hallt : ∀ d ∈ c :: tw, isW d = true := fun d hd => (hrunW d hd).trans hcw
          have hwb : wordB rest = false := by
            rcases hrestW with h0 | ⟨d, ds, hr, hd⟩
            · rw [h0]; rfl
            · rw [hr]
              simp only [wordB]
              rw [hd, hcw]
              rfl
          by_cases hmem : (c :: tw) ∈ toksL
          · have htok : tokAt ((c :: tw) ++ rest) = some (c :: tw) :=
              tokAt_of_tok (c :: tw) rest hmem hwb
            rw [List.cons_append, scan_step]
            rw [show tokAt (c :: (tw ++ rest)) = some (c :: tw) by
              rw [← List.cons_append]; exact htok]
            simp only []
            rw [show (c :: tw).length - 1 = tw.length by simp]
            rw [scan_swallow tw rest, scan_true_of_nonword_head rest hwb, ih rest hrestlen]
            simp [rwRun, hmem]
          · have htok : tokAt ((c :: tw) ++ rest) = none :=
              tokAt_none_of_run (c :: tw) rest hallt hwb hmem
            rw [List.cons_append, scan_step]
            rw [show tokAt (c :: (tw ++ rest)) = none by
              rw [← List.cons_append]; exact htok]
            simp only []
            rw [hcw]
            rw [scan_word_copy_true tw rest (fun d hd => hallt d (by simp [hd]))]
            rw [scan_true_of_nonword_head rest hwb, ih rest hrestlen]
            simp [rwRun, hmem]
  intro cs
  exact main cs.length cs (le_refl _)

lemma rwSpec_eq_self (cs : List Char) (h : hasNoOpWord cs = true) : rwSpec cs = cs := by
  have hall : ∀ r ∈ splitRuns cs, r ∉ toksL := by
    intro r hr
    exact of_decide_eq_true ((List.all_eq_true.mp h) r hr)
  have hmap : (splitRuns cs).map rwRun = splitRuns cs := by
    conv_rhs => rw [← List.map_id (splitRuns cs)]
    exact List.map_congr_left (fun a ha => by simp [rwRun, hall a ha])
  rw [rwSpec, hmap, splitRuns_flatten]

/-! ## Claims C3, C4 — the operator rewrite -/

/-- C3: the rewrite applied to the serialized filter text replaces
every standalone (word-boundary-delimited) occurrence of `gt`, `gte`,
`lt`, `lte`, `in` anywhere in the text with its `$`-prefixed form
(`replaceOps` equals the run rewrite `rwSpec` on all strings) — in
particular inside a user-supplied string value, as `name=gt` becomes
`{name: "$gt"}` — and the query `price[gt]=50` yields the structured
filter `{price: {$gt: "50"}}` with the value kept as a string. -/
theorem C3_rewrite_standalone_words :
    (∀ s : String, replaceOps s = ⟨rwSpec s.data⟩) ∧
    jparse (replaceOps ⟨serV (.jobj (.cons "name" (.jstr "gt") .nil))⟩) =
      some (.jobj (.cons "name" (.jstr "$gt") .nil)) ∧
    jparse (replaceOps ⟨serV (.jobj (reqQueryOf exFilterQ))⟩) =
      some (.jobj (.cons "price" (.jobj (.cons "$gt" (.jstr "50") .nil)) .nil)) := by
  refine ⟨fun s => ?_, rfl, rfl⟩
  simp only [replaceOps]
  rw [scan_eq_rwSpec]

/-- C4: for every filter object whose serialized form contains no
standalone occurrence of the words `gt`, `gte`, `lt`, `lte`, `in`, the
serialize–rewrite–deserialize round trip is the identity: the rewritten
filter equals the original filter parsed as plain equality. -/
theorem C4_no_op_word_roundtrip_id (F : JMems)
    (h : hasNoOpWord (serV (.jobj F)) = true) :
    jparse (replaceOps ⟨serV (.jobj F)⟩) = some (.jobj F) := by
  have h1 : replaceOps ⟨serV (.jobj F)⟩ = ⟨serV (.jobj F)⟩ := by
    simp only [replaceOps]
    rw [scan_eq_rwSpec, rwSpec_eq_self _ h]
  rw [h1, jparse_serV]

theorem C4_no_op_word_roundtrip_id_witness :
    jparse (replaceOps ⟨serV (.jobj qSortPrice)⟩) = some (.jobj qSortPrice) :=
  C4_no_op_word_roundtrip_id qSortPrice (by decide)
